import Mathlib

/-!
Verification of the grammatical-gender analysis pipeline
(`notebooks/grammaticalgender fr-de.ipynb`).

The notebook is a linear pandas pipeline:
loader (`pd.read_csv`) → category filter (`defr[defr.cat == 'noun']`)
→ regex gender extraction (`str.extract`) → `dropna` → char-1 projection
(`lambda s: s[1]`) → static grouping (`Series.map` with a dict)
→ contingency table (`sklearn.metrics.confusion_matrix`)
→ diagonal-agreement ratio and statistics.

Texts are modelled as `List Char`, missing values (pandas `NaN`) as
`Option`, and the fixed two-alternative regular expressions as a direct
scanning matcher with Python `re.search` semantics (leftmost position
wins, first alternative tried first, `.` matches any character).
The opening and closing brace characters are written with their
hexadecimal escapes.
-/

namespace Gender

/-- German gender alphabet: the character class `[mfn]` of the source
regex `(\{[mfn]\}|\{[mfn].pl\})` applied to the `de` column. -/
def deAlpha : List Char := ['m', 'f', 'n']

/-- French gender alphabet: the character class `[mf]` of the source
regex `(\{[mf]\}|\{[mf].pl\})` applied to the `fr` column. -/
def frAlpha : List Char := ['m', 'f']

/-- First regex alternative `\{[g]\}` tried at the current position:
an opening brace, a gender letter from the alphabet, a closing brace.
Returns the matched substring, as Python `re` would capture it. -/
def matchShort (alpha : List Char) (s : List Char) : Option (List Char) :=
  match s with
  | '\x7b' :: g :: '\x7d' :: _ =>
      if g ∈ alpha then some ['\x7b', g, '\x7d'] else none
  | _ => none

/-- Second regex alternative `\{[g].pl\}` tried at the current position.
The `.` in the source pattern is an unescaped regex dot, so it matches
any single character, which the model reproduces with the wildcard `c`. -/
def matchLong (alpha : List Char) (s : List Char) : Option (List Char) :=
  match s with
  | '\x7b' :: g :: c :: 'p' :: 'l' :: '\x7d' :: _ =>
      if g ∈ alpha then some ['\x7b', g, c, 'p', 'l', '\x7d'] else none
  | _ => none

/-- One attempt of the full alternation at the current position: Python
tries the alternatives left to right. -/
def tryAt (alpha : List Char) (s : List Char) : Option (List Char) :=
  match matchShort alpha s with
  | some m => some m
  | none => matchLong alpha s

/-- `re.search` over the whole text: scan positions left to right and
return the first (leftmost) match of the alternation.  This models
`Series.str.extract` with the single capture group spanning the whole
pattern; `none` models the `NaN` produced on a failed extraction. -/
def searchTag (alpha : List Char) : List Char → Option (List Char)
  | [] => none
  | c :: rest =>
    match tryAt alpha (c :: rest) with
    | some m => some m
    | none => searchTag alpha rest

/-- The source's `lambda s: s[1]`: character at index 1 of the matched
substring (every match starts with a brace, so this is the gender
letter).  Matches always have length at least three, so the default
branch is never exercised on extractor output. -/
def sndChar : List Char → Char
  | _ :: g :: _ => g
  | _ => ' '

/-- Extraction composed with the char-1 projection: the gender label a
text yields, if any. -/
def extractLabel (alpha : List Char) (s : List Char) : Option Char :=
  (searchTag alpha s).map sndChar

/-- A row of the dictionary table after the `comment` column is dropped:
German text, French text, category tag. -/
structure Record where
  de : List Char
  fr : List Char
  cat : List Char
deriving DecidableEq

/-- A row of `nouns_gendered`: the two texts and category together with
the two extracted gender letters. -/
structure GenderedNoun where
  de : List Char
  fr : List Char
  cat : List Char
  de_gender : Char
  fr_gender : Char
deriving DecidableEq

/-- The two `str.extract` columns `de_gender` and `fr_gender` attached
to each row, still `Option`-valued (pre-`dropna`). -/
def withGenders (rs : List Record) :
    List (Record × Option (List Char) × Option (List Char)) :=
  rs.map fun r => (r, searchTag deAlpha r.de, searchTag frAlpha r.fr)

/-- `nouns.dropna(axis=0)`: keep exactly the rows in which both
extracted columns are present.  (The text and category columns of the
modelled rows are always present.) -/
def dropna :
    List (Record × Option (List Char) × Option (List Char)) →
      List (Record × List Char × List Char)
  | [] => []
  | (r, oa, ob) :: t =>
    match oa, ob with
    | some a, some b => (r, a, b) :: dropna t
    | some _, none => dropna t
    | none, some _ => dropna t
    | none, none => dropna t

/-- The `nouns_gendered` table: extract both gender columns, drop rows
with a missing value, then replace each matched substring by its
character at index 1. -/
def nounsGendered (rs : List Record) : List GenderedNoun :=
  (dropna (withGenders rs)).map fun rab =>
    ⟨rab.1.de, rab.1.fr, rab.1.cat, sndChar rab.2.1, sndChar rab.2.2⟩

/-- The Grouper `nouns_gendered['de_gender'].map({'f': 'f', 'm': 'm',
'n': 'm'})`.  Pandas `Series.map` with a dict argument maps any value
that is not a key of the dict to `NaN` (here `none`) without raising. -/
def groupMap : Char → Option Char
  | 'f' => some 'f'
  | 'm' => some 'm'
  | 'n' => some 'm'
  | _ => none

/-- The boolean mask `defr.cat == 'noun'` (generalised to an arbitrary
predicate on the category field, instantiated by the source with
equality to `'noun'`). -/
def catMask (p : List Char → Bool) (rs : List Record) : List Bool :=
  rs.map fun r => p r.cat

/-- Pandas boolean-mask row selection `df[mask]`: keep the rows whose
mask entry is `true`, in order. -/
def maskSelect : List Record → List Bool → List Record
  | [], _ => []
  | _ :: _, [] => []
  | r :: rs, b :: bs =>
    if b then r :: maskSelect rs bs else maskSelect rs bs

/-- The Filter stage `defr[defr.cat == p]` for a category predicate. -/
def filterCat (p : List Char → Bool) (rs : List Record) : List Record :=
  maskSelect rs (catMask p rs)

/-- The category tag selected by the source: the string `noun`. -/
def nounCat : List Char := ['n', 'o', 'u', 'n']

/-- The `nouns` table: `defr[defr.cat == 'noun']`. -/
def nouns (rs : List Record) : List Record :=
  filterCat (fun c => c == nounCat) rs

/-- A declarative description of the strings the source pattern can
match: either a brace-wrapped gender letter, or a brace-wrapped gender
letter followed by any character and `pl`. -/
def IsTag (alpha : List Char) (m : List Char) : Prop :=
  (∃ g, g ∈ alpha ∧ m = ['\x7b', g, '\x7d']) ∨
  (∃ g c, g ∈ alpha ∧ m = ['\x7b', g, c, 'p', 'l', '\x7d'])

/-- `m` occurs as a contiguous segment of `s` (the positions at which
`re.search` can find a match). -/
def SubSeg (m s : List Char) : Prop := ∃ u v, u ++ m ++ v = s

/-- Cell count of the contingency table: the number of paired labels
equal to `(a, b)`.  This is `sklearn.metrics.confusion_matrix`'s
`C[i, j]`, the number of samples with true label `i` and predicted
label `j`. -/
def countPair (pairs : List (Char × Char)) (a b : Char) : Nat :=
  (pairs.filter fun pr => pr.1 == a && pr.2 == b).length

/-- `confusion_matrix(yTrue, yPred, labels=labels)`: the matrix of
co-occurrence counts over the declared label ordering.  The two series
are paired positionally. -/
def confusionMatrix (labels : List Char) (yTrue yPred : List Char) :
    List (List Nat) :=
  labels.map fun a => labels.map fun b => countPair (yTrue.zip yPred) a b

/-- Element of a row at an index, `0` past the end (used only within
bounds on the square matrices below). -/
def nthD : List Nat → Nat → Nat
  | [], _ => 0
  | k :: _, 0 => k
  | _ :: t, n + 1 => nthD t n

/-- Main-diagonal walk of a matrix starting at column `i`. -/
def diagFrom : Nat → List (List Nat) → Nat
  | _, [] => 0
  | i, row :: rest => nthD row i + diagFrom (i + 1) rest

/-- `cm.diagonal().sum()` for a square matrix. -/
def diagSum (m : List (List Nat)) : Nat := diagFrom 0 m

/-- `cm.sum()`: the sum of all cells. -/
def totalSum (m : List (List Nat)) : Nat := (m.map List.sum).sum

/-- The diagonal-agreement figure `cm2.diagonal().sum() / cm2.sum()`
computed in exact rational arithmetic. -/
def diagRate (m : List (List Nat)) : ℚ := (diagSum m : ℚ) / (totalSum m : ℚ)

/-- The length guard `check_consistent_length` that both
`confusion_matrix` and `matthews_corrcoef` run on their two input
series before aggregating; it fails on a size mismatch. -/
def checkConsistentLength (a b : List Char) : Bool := a.length == b.length

/-- The Cross-tabulator including its only error condition: `none`
models the `ValueError` raised on inconsistent input lengths. -/
def confusionMatrixChecked (labels : List Char) (yTrue yPred : List Char) :
    Option (List (List Nat)) :=
  if checkConsistentLength yTrue yPred then
    some (confusionMatrix labels yTrue yPred)
  else none

/-- The column `nouns_gendered['de_gender']`. -/
def deGenders (rs : List Record) : List Char :=
  (nounsGendered rs).map fun gn => gn.de_gender

/-- The column `nouns_gendered['fr_gender']`. -/
def frGenders (rs : List Record) : List Char :=
  (nounsGendered rs).map fun gn => gn.fr_gender

/-- The ungrouped table `cm = confusion_matrix(de_gender, fr_gender,
labels=['m', 'f', 'n'])`. -/
def cmFull (rs : List Record) : List (List Nat) :=
  confusionMatrix ['m', 'f', 'n'] (deGenders rs) (frGenders rs)

/-- The slice `cm[:, :2]`: every row restricted to its first two
columns, as fed to the chi-squared test. -/
def truncate2 (m : List (List Nat)) : List (List Nat) :=
  m.map fun row => row.take 2

/-- Loader failure modes of `pd.read_csv`: a missing file raises
`FileNotFoundError`; a data row wider than the declared width raises
`ParserError` (the C tokenizer's "Expected 4 fields, saw N"). -/
inductive LoadErr where
  | fileNotFound
  | tooManyFields
deriving DecidableEq

/-- One loaded row with the four declared column names `de`, `fr`,
`cat`, `comment`; a missing trailing field is the missing value `NaN`
(here `none`). -/
structure RawRow where
  de : Option (List Char)
  fr : Option (List Char)
  cat : Option (List Char)
  comment : Option (List Char)
deriving DecidableEq

/-- Split one line on the tab separator (`sep='\t'`). -/
def splitTab : List Char → List (List Char)
  | [] => [[]]
  | '\t' :: rest => [] :: splitTab rest
  | c :: rest =>
    match splitTab rest with
    | [] => [[c]]
    | f :: fs => (c :: f) :: fs

/-- Tokenize one data line against an already established table width,
following the pandas C tokenizer: a row wider than the established
width raises `ParserError` ("Expected N fields, saw M"), a narrower
row is padded on the right with `NaN`.  When the established width
exceeds the four declared names, the leading extra fields belong to
the implicit index, and the four names take the remaining fields. -/
def parseLine (width : Nat) (line : List Char) : Except LoadErr RawRow :=
  let fs := splitTab line
  if width < fs.length then Except.error LoadErr.tooManyFields
  else
    let body := fs.drop (width - 4)
    Except.ok ⟨body.get? 0, body.get? 1, body.get? 2, body.get? 3⟩

/-- Tokenize every data line against the established width, stopping at
the first failing row, as the C parser does. -/
def parseAll (width : Nat) : List (List Char) → Except LoadErr (List RawRow)
  | [] => Except.ok []
  | l :: ls =>
    match parseLine width l, parseAll width ls with
    | Except.error e, _ => Except.error e
    | Except.ok _, Except.error e => Except.error e
    | Except.ok r, Except.ok rs => Except.ok (r :: rs)

/-- The table width the C tokenizer establishes from the first data
row: later rows must not be wider.  A first row wider than the four
declared names does not fail; its extra leading columns become the
implicit index. -/
def establishedWidth (rows : List (List Char)) : Nat :=
  match rows with
  | [] => 4
  | l :: _ => (splitTab l).length

/-- `pd.read_csv(path, sep='\t', header=7, names=[...])`: `none` models
an absent file (raising `FileNotFoundError`); `header=7` makes row 7
the (discarded) header, so data starts at row 8.  Quoting and escape
handling of the tokenizer are not exercised by tab-separated dict.cc
data and are not modelled. -/
def read_csv (file : Option (List (List Char))) :
    Except LoadErr (List RawRow) :=
  match file with
  | none => Except.error LoadErr.fileNotFound
  | some lines =>
    parseAll (establishedWidth (lines.drop 8)) (lines.drop 8)

/-- Whether an `Except` result is a success. -/
def exceptOk {ε α : Type} : Except ε α → Bool
  | Except.ok _ => true
  | Except.error _ => false

/-- Example source text of the spec: `Haus` tagged neuter. -/
def hausDe : List Char := ['H', 'a', 'u', 's', ' ', '\x7b', 'n', '\x7d']

/-- Example target text of the spec: `maison` tagged feminine. -/
def maisonFr : List Char :=
  ['m', 'a', 'i', 's', 'o', 'n', ' ', '\x7b', 'f', '\x7d']

/-- Example record whose two texts both carry a gender tag. -/
def hausRec : Record := ⟨hausDe, maisonFr, nounCat⟩

/-- Example record whose source text carries no bracket tag. -/
def fooRec : Record := ⟨['f', 'o', 'o'], maisonFr, nounCat⟩

/-- A stand-in header line for loader examples. -/
def hdr : List Char := ['h']

/-- A file of eight header lines and one three-field data row. -/
def shortLines : List (List Char) :=
  [hdr, hdr, hdr, hdr, hdr, hdr, hdr, hdr,
    ['a', '\t', 'b', '\t', 'c']]

/-- A five-field data row. -/
def wideRow : List Char :=
  ['a', '\t', 'b', '\t', 'c', '\t', 'd', '\t', 'e']

/-- A file of eight header lines and one five-field data row: pandas
loads it without error, the extra leading column becoming the implicit
index. -/
def wideLines : List (List Char) :=
  [hdr, hdr, hdr, hdr, hdr, hdr, hdr, hdr, wideRow]

/-- A four-field data row. -/
def fourRow : List Char := ['a', '\t', 'b', '\t', 'c', '\t', 'd']

/-- A file of eight header lines, a four-field first data row (which
establishes the width) and a five-field second data row (which the
tokenizer rejects). -/
def raggedLines : List (List Char) :=
  [hdr, hdr, hdr, hdr, hdr, hdr, hdr, hdr, fourRow, wideRow]

/- ### Matcher inversion lemmas -/

theorem matchShort_eq_some {alpha s m : List Char}
    (h : matchShort alpha s = some m) :
    ∃ g t, g ∈ alpha ∧ s = '\x7b' :: g :: '\x7d' :: t ∧
      m = ['\x7b', g, '\x7d'] := by
  unfold matchShort at h
  split at h
  · rename_i g t
    split at h
    · rename_i hg
      exact ⟨g, t, hg, rfl, (Option.some.inj h).symm⟩
    · exact absurd h (by simp)
  · exact absurd h (by simp)

theorem matchLong_eq_some {alpha s m : List Char}
    (h : matchLong alpha s = some m) :
    ∃ g c t, g ∈ alpha ∧ s = '\x7b' :: g :: c :: 'p' :: 'l' :: '\x7d' :: t ∧
      m = ['\x7b', g, c, 'p', 'l', '\x7d'] := by
  unfold matchLong at h
  split at h
  · rename_i g c t
    split at h
    · rename_i hg
      exact ⟨g, c, t, hg, rfl, (Option.some.inj h).symm⟩
    · exact absurd h (by simp)
  · exact absurd h (by simp)

theorem tryAt_eq_some {alpha s m : List Char} (h : tryAt alpha s = some m) :
    matchShort alpha s = some m ∨ matchLong alpha s = some m := by
  unfold tryAt at h
  split at h
  · exact Or.inl (by rw [← h]; assumption)
  · exact Or.inr h

/-- Soundness of one search step: a successful match is a tag occurring
at the head of the scanned suffix, and its character at index 1 is a
letter of the alphabet. -/
theorem tryAt_sound {alpha s m : List Char} (h : tryAt alpha s = some m) :
    IsTag alpha m ∧ (∃ v, m ++ v = s) ∧ sndChar m ∈ alpha := by
  rcases tryAt_eq_some h with h | h
  · obtain ⟨g, t, hg, hs, hm⟩ := matchShort_eq_some h
    subst hm
    exact ⟨Or.inl ⟨g, hg, rfl⟩, ⟨t, by simp [hs]⟩, hg⟩
  · obtain ⟨g, c, t, hg, hs, hm⟩ := matchLong_eq_some h
    subst hm
    exact ⟨Or.inr ⟨g, c, hg, rfl⟩, ⟨t, by simp [hs]⟩, hg⟩

/-- Completeness of one search step: if a tag sits at the head of the
scanned suffix, the alternation finds some match there. -/
theorem tryAt_complete {alpha s m : List Char} (htag : IsTag alpha m)
    (hpre : ∃ v, m ++ v = s) : (tryAt alpha s).isSome := by
  obtain ⟨v, hv⟩ := hpre
  cases hms : matchShort alpha s with
  | some m0 => simp [tryAt, hms]
  | none =>
    rcases htag with ⟨g, hg, hm⟩ | ⟨g, c, hg, hm⟩
    · subst hm
      have : matchShort alpha s = some ['\x7b', g, '\x7d'] := by
        rw [← hv]
        simp [matchShort, hg]
      rw [this] at hms
      exact absurd hms (by simp)
    · subst hm
      have hlong : matchLong alpha s =
          some ['\x7b', g, c, 'p', 'l', '\x7d'] := by
        rw [← hv]
        simp [matchLong, hg]
      simp [tryAt, hms, hlong]

/-- Soundness of the scan: whatever `re.search` returns is a tag that
occurs as a contiguous segment of the text, and its character at index
1 is a letter of the alphabet. -/
theorem searchTag_eq_some {alpha : List Char} :
    ∀ {s m : List Char}, searchTag alpha s = some m →
      IsTag alpha m ∧ SubSeg m s ∧ sndChar m ∈ alpha := by
  intro s
  induction s with
  | nil => intro m h; exact absurd h (by simp [searchTag])
  | cons c rest ih =>
    intro m h
    cases htry : tryAt alpha (c :: rest) with
    | some m0 =>
      simp only [searchTag, htry] at h
      obtain rfl : m0 = m := Option.some.inj h
      obtain ⟨htag, ⟨v, hv⟩, hmem⟩ := tryAt_sound htry
      exact ⟨htag, ⟨[], v, by simpa using hv⟩, hmem⟩
    | none =>
      simp only [searchTag, htry] at h
      obtain ⟨htag, ⟨u, v, huv⟩, hmem⟩ := ih h
      exact ⟨htag, ⟨c :: u, v, by simp [huv]⟩, hmem⟩

theorem searchTag_cons_of_tryAt {alpha rest : List Char} {c : Char}
    (h : (tryAt alpha (c :: rest)).isSome) :
    (searchTag alpha (c :: rest)).isSome := by
  cases htry : tryAt alpha (c :: rest) with
  | some m => simp [searchTag, htry]
  | none => rw [htry] at h; exact absurd h (by simp)

theorem searchTag_cons_of_rest {alpha rest : List Char} {c : Char}
    (h : (searchTag alpha rest).isSome) :
    (searchTag alpha (c :: rest)).isSome := by
  cases htry : tryAt alpha (c :: rest) with
  | some m => simp [searchTag, htry]
  | none => simpa [searchTag, htry] using h

/-- Completeness of the scan: if any tag occurs anywhere in the text,
`re.search` succeeds. -/
theorem searchTag_complete {alpha m : List Char} (htag : IsTag alpha m) :
    ∀ (u v : List Char), (searchTag alpha (u ++ m ++ v)).isSome := by
  intro u
  induction u with
  | nil =>
    intro v
    obtain ⟨g, t, hm⟩ : ∃ g t, m = '\x7b' :: g :: t := by
      rcases htag with ⟨g, _, hm⟩ | ⟨g, c, _, hm⟩
      · exact ⟨g, _, hm⟩
      · exact ⟨g, _, hm⟩
    subst hm
    exact searchTag_cons_of_tryAt (tryAt_complete htag ⟨v, rfl⟩)
  | cons x u ih =>
    intro v
    exact searchTag_cons_of_rest (ih v)

/- ### Filter stage: claim C7 -/

theorem maskSelect_catMask (p : List Char → Bool) :
    ∀ rs : List Record, maskSelect rs (catMask p rs) =
      rs.filter fun r => p r.cat := by
  intro rs
  induction rs with
  | nil => rfl
  | cons r rs ih =>
    by_cases h : p r.cat <;>
      simp [catMask, maskSelect, List.filter_cons, h] <;>
      simpa [catMask] using ih

/-- C7: for every sequence of records and every category predicate, the
Filter output is exactly the subsequence of records satisfying the
predicate, with the original relative order preserved (the output is a
sublist of the input); the function is pure, so the input is unchanged. -/
theorem filterCat_exact (p : List Char → Bool) (rs : List Record) :
    filterCat p rs = (rs.filter fun r => p r.cat) ∧
    (filterCat p rs).Sublist rs := by
  have h := maskSelect_catMask p rs
  refine ⟨h, ?_⟩
  rw [filterCat, h]
  exact List.filter_sublist rs

/-- Witness for C7 on a concrete two-record table with the source's
noun predicate. -/
theorem filterCat_exact_w :
    filterCat (fun c => c == nounCat) [hausRec, fooRec] =
      ([hausRec, fooRec].filter fun r => r.cat == nounCat) ∧
    (filterCat (fun c => c == nounCat) [hausRec, fooRec]).Sublist
      [hausRec, fooRec] :=
  filterCat_exact (fun c => c == nounCat) [hausRec, fooRec]

/- ### Grouper: claims C1 and C8 -/

/-- C1 counterexample: the label `x` lies outside the declared domain
of the grouping dict, and the Grouper maps it to the absent value
(pandas `NaN`, here `none`) instead of raising a contract violation:
`Series.map` with a dict never fails on unmapped labels. -/
theorem groupMap_unmapped_silent : groupMap 'x' = none := by decide

/-- C8: the Grouper is total on the gender alphabet and idempotent at
the value level: on every label of its domain it yields a value, and
applying it a second time to that value yields the same value. -/
theorem groupMap_idem (x : Char) (h : x ∈ deAlpha) :
    (groupMap x).isSome ∧ (groupMap x).bind groupMap = groupMap x := by
  have : x = 'm' ∨ x = 'f' ∨ x = 'n' := by simpa [deAlpha] using h
  rcases this with h | h | h <;> subst h <;> exact ⟨rfl, rfl⟩

/-- Witness for C8 at the label n. -/
theorem groupMap_idem_w :
    (groupMap 'n').isSome ∧ (groupMap 'n').bind groupMap = groupMap 'n' :=
  groupMap_idem 'n' (by decide)

/- ### Extractor: claim C2 -/

/-- C2: the Extractor yields a label exactly when the fixed pattern
matches somewhere in the text, and the label it yields is the single
gender character captured from the matched substring (index 1 of a
match of the form brace-letter-brace or brace-letter-any-pl-brace). -/
theorem extractLabel_iff_match (alpha s : List Char) :
    ((∃ g, extractLabel alpha s = some g) ↔
      ∃ m, IsTag alpha m ∧ SubSeg m s) ∧
    ∀ g, extractLabel alpha s = some g →
      ∃ m, SubSeg m s ∧ g ∈ alpha ∧
        (m = ['\x7b', g, '\x7d'] ∨
          ∃ c, m = ['\x7b', g, c, 'p', 'l', '\x7d']) := by
  constructor
  · constructor
    · rintro ⟨g, hg⟩
      obtain ⟨m, hm⟩ : ∃ m, searchTag alpha s = some m := by
        cases h : searchTag alpha s with
        | none => rw [extractLabel, h] at hg; exact absurd hg (by simp)
        | some m => exact ⟨m, rfl⟩
      obtain ⟨htag, hseg, _⟩ := searchTag_eq_some hm
      exact ⟨m, htag, hseg⟩
    · rintro ⟨m, htag, u, v, huv⟩
      have := searchTag_complete htag u v
      rw [huv] at this
      obtain ⟨m0, hm0⟩ := Option.isSome_iff_exists.mp this
      exact ⟨sndChar m0, by rw [extractLabel, hm0]; rfl⟩
  · intro g hg
    obtain ⟨m, hm⟩ : ∃ m, searchTag alpha s = some m := by
      cases h : searchTag alpha s with
      | none => rw [extractLabel, h] at hg; exact absurd hg (by simp)
      | some m => exact ⟨m, rfl⟩
    have hsnd : sndChar m = g := by
      rw [extractLabel, hm] at hg
      exact Option.some.inj hg
    obtain ⟨htag, hseg, hmem⟩ := searchTag_eq_some hm
    rcases htag with ⟨g0, hg0, hm0⟩ | ⟨g0, c, hg0, hm0⟩
    · subst hm0
      obtain rfl : g0 = g := hsnd
      exact ⟨_, hseg, hg0, Or.inl rfl⟩
    · subst hm0
      obtain rfl : g0 = g := hsnd
      exact ⟨_, hseg, hg0, Or.inr ⟨c, rfl⟩⟩

/-- Witness for C2 on the spec's examples: `Haus` tagged n yields the
label n through the second conjunct of the theorem, and `maison` tagged
f yields the label f. -/
theorem extractLabel_iff_match_w :
    (∃ m, SubSeg m hausDe ∧ 'n' ∈ deAlpha ∧
      (m = ['\x7b', 'n', '\x7d'] ∨
        ∃ c, m = ['\x7b', 'n', c, 'p', 'l', '\x7d'])) ∧
    extractLabel deAlpha hausDe = some 'n' ∧
    extractLabel frAlpha maisonFr = some 'f' :=
  ⟨(extractLabel_iff_match deAlpha hausDe).2 'n' (by decide),
    by decide, by decide⟩

/- ### Extractor retention: claim C3 -/

theorem nounsGendered_cons (r : Record) (rs : List Record) :
    nounsGendered (r :: rs) =
      (match searchTag deAlpha r.de, searchTag frAlpha r.fr with
        | some a, some b => [⟨r.de, r.fr, r.cat, sndChar a, sndChar b⟩]
        | some _, none => []
        | none, some _ => []
        | none, none => []) ++ nounsGendered rs := by
  cases hda : searchTag deAlpha r.de with
  | none =>
    cases hfb : searchTag frAlpha r.fr with
    | none => simp [nounsGendered, withGenders, dropna, hda, hfb]
    | some b => simp [nounsGendered, withGenders, dropna, hda, hfb]
  | some a =>
    cases hfb : searchTag frAlpha r.fr with
    | none => simp [nounsGendered, withGenders, dropna, hda, hfb]
    | some b => simp [nounsGendered, withGenders, dropna, hda, hfb]

/-- Every row of `nouns_gendered` records a successful extraction on
both of its text fields, and its gender letters are the char-1
projections of those matches. -/
theorem mem_nounsGendered {rs : List Record} {gn : GenderedNoun}
    (h : gn ∈ nounsGendered rs) :
    ∃ a b, searchTag deAlpha gn.de = some a ∧
      searchTag frAlpha gn.fr = some b ∧
      gn.de_gender = sndChar a ∧ gn.fr_gender = sndChar b := by
  induction rs with
  | nil => exact absurd h (by simp [nounsGendered, withGenders, dropna])
  | cons r rs ih =>
    rw [nounsGendered_cons] at h
    cases hda : searchTag deAlpha r.de with
    | none =>
      cases hfb : searchTag frAlpha r.fr with
      | none => rw [hda, hfb] at h; exact ih (by simpa using h)
      | some b => rw [hda, hfb] at h; exact ih (by simpa using h)
    | some a =>
      cases hfb : searchTag frAlpha r.fr with
      | none => rw [hda, hfb] at h; exact ih (by simpa using h)
      | some b =>
        rw [hda, hfb] at h
        rcases List.mem_append.mp h with h | h
        · obtain rfl : gn = ⟨r.de, r.fr, r.cat, sndChar a, sndChar b⟩ := by
            simpa using h
          exact ⟨a, b, hda, hfb, rfl, rfl⟩
        · exact ih h

/-- A record on which both extractions succeed contributes its row to
`nouns_gendered`. -/
theorem nounsGendered_of_mem {rs : List Record} {r : Record}
    {a b : List Char} (hr : r ∈ rs)
    (hda : searchTag deAlpha r.de = some a)
    (hfb : searchTag frAlpha r.fr = some b) :
    (⟨r.de, r.fr, r.cat, sndChar a, sndChar b⟩ : GenderedNoun) ∈
      nounsGendered rs := by
  induction rs with
  | nil => exact absurd hr (by simp)
  | cons x xs ih =>
    rw [nounsGendered_cons]
    rcases List.mem_cons.mp hr with rfl | hr
    · rw [hda, hfb]
      simp
    · exact List.mem_append.mpr (Or.inr (ih hr))

/-- C3: a record is retained in `nouns_gendered` exactly when both of
its text fields yield a gender label; if either extraction fails the
record is dropped, whatever the other field holds. -/
theorem record_retained_iff (rs : List Record) (r : Record) (h : r ∈ rs) :
    ((searchTag deAlpha r.de).isSome ∧ (searchTag frAlpha r.fr).isSome) ↔
      ∃ gn ∈ nounsGendered rs, gn.de = r.de ∧ gn.fr = r.fr := by
  constructor
  · rintro ⟨hda, hfb⟩
    obtain ⟨a, ha⟩ := Option.isSome_iff_exists.mp hda
    obtain ⟨b, hb⟩ := Option.isSome_iff_exists.mp hfb
    exact ⟨⟨r.de, r.fr, r.cat, sndChar a, sndChar b⟩,
      nounsGendered_of_mem h ha hb, rfl, rfl⟩
  · rintro ⟨gn, hgn, hde, hfr⟩
    obtain ⟨a, b, hda, hfb, _, _⟩ := mem_nounsGendered hgn
    rw [hde] at hda
    rw [hfr] at hfb
    exact ⟨by simp [hda], by simp [hfb]⟩

/-- Witness for C3: the record with source text `foo` (no bracket tag)
and a valid target field is dropped: `nouns_gendered` of the
one-record table is empty. -/
theorem record_retained_iff_w :
    (((searchTag deAlpha fooRec.de).isSome ∧
        (searchTag frAlpha fooRec.fr).isSome) ↔
      ∃ gn ∈ nounsGendered [fooRec], gn.de = fooRec.de ∧
        gn.fr = fooRec.fr) ∧
    nounsGendered [fooRec] = [] ∧
    searchTag deAlpha fooRec.de = none :=
  ⟨record_retained_iff [fooRec] fooRec (by simp), by decide, by decide⟩

/- ### Grouper totality on pipeline labels: claim C1, amended -/

/-- C1 amended: a label outside the declared domain f, m, n is silently
sent to the absent value (`NaN`, here `none`) rather than raising a
contract violation; the mapping is, however, total over the alphabet
m, f, n that the Extractor can produce for the German side, so every
`de_gender` value flowing into the Grouper is mapped. -/
theorem groupMap_domain (x : Char) (rs : List Record) :
    (x ∉ deAlpha → groupMap x = none) ∧
    ∀ gn ∈ nounsGendered rs, (groupMap gn.de_gender).isSome := by
  constructor
  · intro hx
    unfold groupMap
    split
    · exact absurd (by decide) hx
    · exact absurd (by decide) hx
    · exact absurd (by decide) hx
    · rfl
  · intro gn hgn
    obtain ⟨a, b, hda, hfb, hsa, hsb⟩ := mem_nounsGendered hgn
    have hmem : sndChar a ∈ deAlpha := (searchTag_eq_some hda).2.2
    rw [hsa]
    have : sndChar a = 'm' ∨ sndChar a = 'f' ∨ sndChar a = 'n' := by
      simpa [deAlpha] using hmem
    rcases this with h | h | h <;> simp [groupMap, h]

/-- Witness for C1 amended: the unmapped label x goes to the absent
value, and the `de_gender` label n of the example record is mapped. -/
theorem groupMap_domain_w :
    groupMap 'x' = none ∧
    (groupMap (GenderedNoun.mk hausDe maisonFr nounCat 'n' 'f').de_gender
      ).isSome :=
  ⟨(groupMap_domain 'x' []).1 (by decide),
    (groupMap_domain 'z' [hausRec]).2
      ⟨hausDe, maisonFr, nounCat, 'n', 'f'⟩ (by decide)⟩

/- ### Cross-tabulator counting lemmas -/

theorem sum_map_add {α : Type} (l : List α) (f g : α → Nat) :
    (l.map fun x => f x + g x).sum = (l.map f).sum + (l.map g).sum := by
  induction l with
  | nil => rfl
  | cons x t ih => simp [ih]; omega

theorem sum_map_ite (x : Char) (k : Nat) :
    ∀ (l : List Char), l.Nodup →
      (l.map fun a => if a = x then k else 0).sum =
        if x ∈ l then k else 0 := by
  intro l
  induction l with
  | nil => intro _; simp
  | cons c t ih =>
    intro hnd
    obtain ⟨hc, ht⟩ := List.nodup_cons.mp hnd
    by_cases hcx : c = x
    · subst hcx
      simp [ih ht, hc]
    · have hxc : ¬x = c := fun h => hcx h.symm
      simp [hcx, hxc, ih ht, List.mem_cons]

theorem countPair_cons (pr : Char × Char) (t : List (Char × Char))
    (a b : Char) :
    countPair (pr :: t) a b =
      countPair t a b + (if pr.1 = a ∧ pr.2 = b then 1 else 0) := by
  by_cases h1 : pr.1 = a <;> by_cases h2 : pr.2 = b <;>
    simp [countPair, List.filter_cons, h1, h2]

theorem totalSum_map (l : List Char) (f : Char → List Nat) :
    totalSum (l.map f) = (l.map fun a => (f a).sum).sum := by
  simp [totalSum, List.map_map, Function.comp_def]

/-- Each paired sample whose two labels both occur in a duplicate-free
label list contributes exactly one to the table total. -/
theorem total_cm (labels : List Char) (hnd : labels.Nodup) :
    ∀ (pairs : List (Char × Char)),
      (∀ pr ∈ pairs, pr.1 ∈ labels ∧ pr.2 ∈ labels) →
      totalSum (labels.map fun a => labels.map fun b =>
        countPair pairs a b) = pairs.length := by
  intro pairs
  induction pairs with
  | nil =>
    intro _
    simp [totalSum, countPair]
  | cons pr t ih =>
    intro hmem
    obtain ⟨h1, h2⟩ := hmem pr (by simp)
    have ht : ∀ q ∈ t, q.1 ∈ labels ∧ q.2 ∈ labels := fun q hq =>
      hmem q (by simp [hq])
    have hinner : ∀ a : Char,
        (labels.map fun b => countPair (pr :: t) a b).sum =
          (labels.map fun b => countPair t a b).sum +
            (if pr.1 = a then 1 else 0) := by
      intro a
      have hfun : (labels.map fun b => countPair (pr :: t) a b) =
          labels.map fun b => countPair t a b +
            (if b = pr.2 then (if pr.1 = a then 1 else 0) else 0) := by
        refine congrArg (fun f => List.map f labels) (funext fun b => ?_)
        rw [countPair_cons]
        congr 1
        by_cases hb : b = pr.2
        · by_cases ha : pr.1 = a <;> simp [hb, ha]
        · have hb2 : pr.2 ≠ b := fun h => hb h.symm
          simp [hb, hb2]
      rw [hfun, sum_map_add, sum_map_ite pr.2 _ labels hnd, if_pos h2]
    have houter : (labels.map fun a => labels.map fun b =>
        countPair (pr :: t) a b).map List.sum =
          labels.map fun a =>
            (labels.map fun b => countPair t a b).sum +
              (if a = pr.1 then 1 else 0) := by
      rw [List.map_map]
      refine congrArg (fun f => List.map f labels) (funext fun a => ?_)
      rw [Function.comp_apply, hinner a]
      congr 1
      by_cases ha : a = pr.1
      · simp [ha]
      · have : ¬pr.1 = a := fun h => ha h.symm
        simp [ha, this]
    rw [totalSum, houter, sum_map_add, sum_map_ite pr.1 1 labels hnd,
      if_pos h1]
    have := ih ht
    rw [totalSum_map] at this
    rw [this]
    simp

theorem nthD_le_sum : ∀ (row : List Nat) (i : Nat), nthD row i ≤ row.sum := by
  intro row
  induction row with
  | nil => intro i; simp [nthD]
  | cons k t ih =>
    intro i
    cases i with
    | zero => simp [nthD]
    | succ i =>
      have := ih i
      simp only [nthD, List.sum_cons]
      omega

theorem diagFrom_le_total :
    ∀ (m : List (List Nat)) (i : Nat), diagFrom i m ≤ totalSum m := by
  intro m
  induction m with
  | nil => intro i; simp [diagFrom, totalSum]
  | cons row rest ih =>
    intro i
    have h1 := nthD_le_sum row i
    have h2 := ih (i + 1)
    simp only [diagFrom, totalSum, List.map_cons, List.sum_cons] at *
    omega

theorem nthD_map_of_drop (g : Char → Nat) :
    ∀ (l : List Char) (k : Nat) (a : Char) (rest : List Char),
      l.drop k = a :: rest → nthD (l.map g) k = g a := by
  intro l
  induction l with
  | nil => intro k a rest h; simp at h
  | cons c t ih =>
    intro k a rest h
    cases k with
    | zero =>
      simp only [List.drop_zero] at h
      injection h with h1 h2
      subst h1
      rfl
    | succ k =>
      simp only [List.drop_succ_cons] at h
      exact ih k a rest h

/-- The main diagonal of the table collects, for each label, the count
of pairs agreeing on that label. -/
theorem diagFrom_cm (pairs : List (Char × Char)) (labels : List Char) :
    ∀ (ts : List Char) (k : Nat), labels.drop k = ts →
      diagFrom k (ts.map fun a => labels.map fun b =>
        countPair pairs a b) =
        (ts.map fun a => countPair pairs a a).sum := by
  intro ts
  induction ts with
  | nil => intro k _; rfl
  | cons a ts ih =>
    intro k hk
    have h1 : nthD (labels.map fun b => countPair pairs a b) k =
        countPair pairs a a := nthD_map_of_drop _ labels k a ts hk
    have h2 : labels.drop (k + 1) = ts := by
      rw [← List.drop_drop 1 k labels, hk]
      rfl
    simp only [List.map_cons, diagFrom, List.sum_cons, h1, ih (k + 1) h2]

/-- The diagonal total counts exactly the agreeing pairs, for a
duplicate-free label list covering the first components. -/
theorem diag_count (labels : List Char) (hnd : labels.Nodup) :
    ∀ (pairs : List (Char × Char)), (∀ pr ∈ pairs, pr.1 ∈ labels) →
      (labels.map fun a => countPair pairs a a).sum =
        (pairs.filter fun pr => pr.1 == pr.2).length := by
  intro pairs
  induction pairs with
  | nil => intro _; simp [countPair]
  | cons pr t ih
  =>
    intro hmem
    have h1 : pr.1 ∈ labels := hmem pr (by simp)
    have ht : ∀ q ∈ t, q.1 ∈ labels := fun q hq => hmem q (by simp [hq])
    by_cases hpq : pr.1 = pr.2
    · have hfun : (labels.map fun a => countPair (pr :: t) a a) =
          labels.map fun a => countPair t a a +
            (if a = pr.1 then 1 else 0) := by
        refine congrArg (fun f => List.map f labels) (funext fun a => ?_)
        rw [countPair_cons]
        congr 1
        by_cases ha : a = pr.1
        · subst ha
          simp [← hpq]
        · have : ¬pr.1 = a := fun h => ha h.symm
          simp [ha, this]
      rw [hfun, sum_map_add, sum_map_ite pr.1 1 labels hnd, if_pos h1,
        ih ht, List.filter_cons]
      simp [hpq]
    · have hfun : (labels.map fun a => countPair (pr :: t) a a) =
          labels.map fun a => countPair t a a := by
        refine congrArg (fun f => List.map f labels) (funext fun a => ?_)
        rw [countPair_cons]
        have : ¬(pr.1 = a ∧ pr.2 = a) := by
          rintro ⟨rfl, h2⟩
          exact hpq h2.symm
        simp [this]
      rw [hfun, ih ht, List.filter_cons]
      have : (pr.1 == pr.2) = false := by simp [hpq]
      simp [this]

theorem filter_len_full {α : Type} (q : α → Bool) :
    ∀ (l : List α),
      ((l.filter q).length = l.length ↔ ∀ x ∈ l, q x = true) := by
  intro l
  induction l with
  | nil => simp
  | cons x t ih =>
    by_cases hx : q x
    · simp [List.filter_cons, hx, ih]
    · have hle : (t.filter q).length ≤ t.length :=
        List.length_filter_le q t
      simp only [List.filter_cons, hx, if_false, Bool.false_eq_true,
        List.length_cons]
      constructor
      · intro h; omega
      · intro h
        exact absurd (h x (by simp)) (by simp [hx])

theorem zip_mem_parts {a b : Char} :
    ∀ {l1 l2 : List Char}, (a, b) ∈ l1.zip l2 → a ∈ l1 ∧ b ∈ l2 := by
  intro l1
  induction l1 with
  | nil => intro l2 h; simp at h
  | cons x t ih =>
    intro l2 h
    cases l2 with
    | nil => simp at h
    | cons y s =>
      rw [List.zip_cons_cons] at h
      rcases List.mem_cons.mp h with h | h
      · injection h with h1 h2
        subst h1; subst h2
        exact ⟨by simp, by simp⟩
      · obtain ⟨ha, hb⟩ := ih h
        exact ⟨by simp [ha], by simp [hb]⟩

/- ### Cross-tabulator: claim C5 -/

/-- C5: for any two equal-length label sequences drawn from the
declared (duplicate-free) label set, every cell of the contingency
table is a non-negative integer and the cells sum to the number of
paired labels consumed. -/
theorem cm_cells (labels yT yP : List Char) (hnd : labels.Nodup)
    (hlen : yT.length = yP.length)
    (hT : ∀ c ∈ yT, c ∈ labels) (hP : ∀ c ∈ yP, c ∈ labels) :
    (∀ row ∈ confusionMatrix labels yT yP, ∀ k ∈ row, 0 ≤ k) ∧
    totalSum (confusionMatrix labels yT yP) = yT.length := by
  have hmem : ∀ pr ∈ yT.zip yP, pr.1 ∈ labels ∧ pr.2 ∈ labels := by
    intro pr hpr
    obtain ⟨hx, hy⟩ := zip_mem_parts (a := pr.1) (b := pr.2)
      (by simpa using hpr)
    exact ⟨hT _ hx, hP _ hy⟩
  refine ⟨fun row _ k _ => Nat.zero_le k, ?_⟩
  rw [confusionMatrix, total_cm labels hnd _ hmem, List.length_zip,
    hlen, Nat.min_self]

/-- Witness for C5 on the spec's worked example: grouping the source
labels m, f, n, m sends them to m, f, m, m; against the target labels
m, f, m, f the table over the label order m, f is `[[2,1],[0,1]]`, its
cells sum to the four pairs consumed, and the diagonal rate is 3/4. -/
theorem cm_cells_w :
    ((∀ row ∈ confusionMatrix ['m', 'f'] ['m', 'f', 'm', 'm']
          ['m', 'f', 'm', 'f'], ∀ k ∈ row, 0 ≤ k) ∧
      totalSum (confusionMatrix ['m', 'f'] ['m', 'f', 'm', 'm']
        ['m', 'f', 'm', 'f']) = 4) ∧
    List.filterMap groupMap ['m', 'f', 'n', 'm'] = ['m', 'f', 'm', 'm'] ∧
    confusionMatrix ['m', 'f'] ['m', 'f', 'm', 'm'] ['m', 'f', 'm', 'f'] =
      [[2, 1], [0, 1]] ∧
    diagRate [[2, 1], [0, 1]] = 3 / 4 :=
  ⟨cm_cells ['m', 'f'] ['m', 'f', 'm', 'm'] ['m', 'f', 'm', 'f']
      (by decide) (by decide) (by decide) (by decide),
    by decide, by decide,
    by norm_num [diagRate, diagSum, diagFrom, nthD, totalSum]⟩

/- ### Diagonal-agreement ratio: claim C4 -/

/-- C4: for a table built by the Cross-tabulator from equal-length,
nonempty label sequences drawn from the declared duplicate-free label
set, the diagonal-agreement figure lies in the interval from 0 to 1 and
equals 1 exactly when every pair of labels agrees. -/
theorem diagRate_bounds (labels yT yP : List Char) (hnd : labels.Nodup)
    (hlen : yT.length = yP.length) (hne : yT ≠ [])
    (hT : ∀ c ∈ yT, c ∈ labels) (hP : ∀ c ∈ yP, c ∈ labels) :
    0 ≤ diagRate (confusionMatrix labels yT yP) ∧
    diagRate (confusionMatrix labels yT yP) ≤ 1 ∧
    (diagRate (confusionMatrix labels yT yP) = 1 ↔
      ∀ pr ∈ yT.zip yP, pr.1 = pr.2) := by
  have hmem : ∀ pr ∈ yT.zip yP, pr.1 ∈ labels ∧ pr.2 ∈ labels := by
    intro pr hpr
    obtain ⟨hx, hy⟩ := zip_mem_parts (a := pr.1) (b := pr.2)
      (by simpa using hpr)
    exact ⟨hT _ hx, hP _ hy⟩
  have hmem1 : ∀ pr ∈ yT.zip yP, pr.1 ∈ labels := fun pr h => (hmem pr h).1
  have htot : totalSum (confusionMatrix labels yT yP) =
      (yT.zip yP).length := by
    rw [confusionMatrix]; exact total_cm labels hnd _ hmem
  have hdiag : diagSum (confusionMatrix labels yT yP) =
      ((yT.zip yP).filter fun pr => pr.1 == pr.2).length := by
    rw [confusionMatrix, diagSum, diagFrom_cm _ labels labels 0 rfl]
    exact diag_count labels hnd _ hmem1
  have hn : (yT.zip yP).length = yT.length := by
    rw [List.length_zip, hlen, Nat.min_self]
  have hpos : 0 < yT.length := List.length_pos.mpr hne
  have htpos : (0 : ℚ) < (totalSum (confusionMatrix labels yT yP) : ℚ) := by
    rw [htot, hn]
    exact_mod_cast hpos
  refine ⟨?_, ?_, ?_⟩
  · exact div_nonneg (Nat.cast_nonneg _) (Nat.cast_nonneg _)
  · rw [diagRate, div_le_one htpos, Nat.cast_le]
    exact diagFrom_le_total _ 0
  · rw [diagRate, div_eq_one_iff_eq htpos.ne', Nat.cast_inj, hdiag, htot,
      filter_len_full]
    constructor
    · intro h pr hpr
      simpa using h pr hpr
    · intro h pr hpr
      simpa using h pr hpr

/-- Witness for C4 on the worked example of the spec, where exactly
three of the four grouped pairs agree. -/
theorem diagRate_bounds_w :
    0 ≤ diagRate (confusionMatrix ['m', 'f'] ['m', 'f', 'm', 'm']
      ['m', 'f', 'm', 'f']) ∧
    diagRate (confusionMatrix ['m', 'f'] ['m', 'f', 'm', 'm']
      ['m', 'f', 'm', 'f']) ≤ 1 ∧
    (diagRate (confusionMatrix ['m', 'f'] ['m', 'f', 'm', 'm']
      ['m', 'f', 'm', 'f']) = 1 ↔
      ∀ pr ∈ List.zip ['m', 'f', 'm', 'm'] ['m', 'f', 'm', 'f'],
        pr.1 = pr.2) :=
  diagRate_bounds ['m', 'f'] ['m', 'f', 'm', 'm'] ['m', 'f', 'm', 'f']
    (by decide) (by decide) (by decide) (by decide) (by decide)

/- ### French labels and the neutral column: claim C9 -/

theorem countPair_snd_zero (pairs : List (Char × Char)) (a x : Char)
    (h : ∀ pr ∈ pairs, pr.2 ≠ x) : countPair pairs a x = 0 := by
  induction pairs with
  | nil => rfl
  | cons pr t ih =>
    have h2 : pr.2 ≠ x := (h pr (by simp))
    have ht : ∀ q ∈ t, q.2 ≠ x := fun q hq => h q (by simp [hq])
    rw [countPair_cons, ih ht]
    simp [h2]

theorem frGenders_alpha (rs : List Record) :
    ∀ c ∈ frGenders rs, c ∈ frAlpha := by
  intro c hc
  rw [frGenders] at hc
  obtain ⟨gn, hgn, rfl⟩ := List.mem_map.mp hc
  obtain ⟨a, b, _, hfb, _, hsb⟩ := mem_nounsGendered hgn
  rw [hsb]
  exact (searchTag_eq_some hfb).2.2

/-- C9: every French label produced by the Extractor is m or f, never
n, so in the ungrouped table over the label order m, f, n the column
for the French label n is identically zero, and restricting the table
to its first two columns (as done before the chi-squared test) loses
no counts. -/
theorem fr_neutral_column_zero (rs : List Record) :
    (∀ gn ∈ nounsGendered rs, gn.fr_gender ∈ frAlpha) ∧
    (∀ row ∈ cmFull rs, nthD row 2 = 0) ∧
    totalSum (truncate2 (cmFull rs)) = totalSum (cmFull rs) := by
  have hsnd : ∀ pr ∈ (deGenders rs).zip (frGenders rs), pr.2 ≠ 'n' := by
    intro pr hpr
    have h2 : pr.2 ∈ frGenders rs :=
      (zip_mem_parts (a := pr.1) (b := pr.2) (by simpa using hpr)).2
    have := frGenders_alpha rs pr.2 h2
    rcases (by simpa [frAlpha] using this : pr.2 = 'm' ∨ pr.2 = 'f') with
      h | h <;> simp [h]
  have hz : ∀ a, countPair ((deGenders rs).zip (frGenders rs)) a 'n' = 0 :=
    fun a => countPair_snd_zero _ a 'n' hsnd
  refine ⟨?_, ?_, ?_⟩
  · intro gn hgn
    obtain ⟨a, b, _, hfb, _, hsb⟩ := mem_nounsGendered hgn
    rw [hsb]
    exact (searchTag_eq_some hfb).2.2
  · intro row hrow
    rw [cmFull, confusionMatrix] at hrow
    simp only [List.map_cons, List.map_nil, List.mem_cons,
      List.not_mem_nil, or_false] at hrow
    rcases hrow with rfl | rfl | rfl <;> simp [nthD, hz]
  · rw [cmFull, confusionMatrix]
    simp [truncate2, totalSum, hz]

/-- Witness for C9: on the one-record example table, the example row's
French label is in the binary alphabet and the column-2 slice of the
full table keeps the whole total. -/
theorem fr_neutral_column_zero_w :
    (GenderedNoun.mk hausDe maisonFr nounCat 'n' 'f').fr_gender ∈
      frAlpha ∧
    totalSum (truncate2 (cmFull [hausRec])) = totalSum (cmFull [hausRec]) :=
  ⟨(fr_neutral_column_zero [hausRec]).1
      ⟨hausDe, maisonFr, nounCat, 'n', 'f'⟩ (by decide),
    (fr_neutral_column_zero [hausRec]).2.2⟩

/- ### Parallel columns: claim C10 -/

/-- C10: the two label sequences handed to the Cross-tabulator and to
the correlation computation are parallel columns of the one
`nouns_gendered` table, hence always of equal length; the shared
length guard passes and the size-mismatch error branch is unreachable
in this program. -/
theorem parallel_columns (labels : List Char) (rs : List Record) :
    (deGenders rs).length = (frGenders rs).length ∧
    checkConsistentLength (deGenders rs) (frGenders rs) = true ∧
    confusionMatrixChecked labels (deGenders rs) (frGenders rs) =
      some (confusionMatrix labels (deGenders rs) (frGenders rs)) := by
  have h : (deGenders rs).length = (frGenders rs).length := by
    simp [deGenders, frGenders]
  refine ⟨h, ?_, ?_⟩
  · simp [checkConsistentLength, h]
  · simp [confusionMatrixChecked, checkConsistentLength, h]

/-- Witness for C10 on the one-record example table with the full
label ordering. -/
theorem parallel_columns_w :
    (deGenders [hausRec]).length = (frGenders [hausRec]).length ∧
    checkConsistentLength (deGenders [hausRec]) (frGenders [hausRec]) =
      true ∧
    confusionMatrixChecked ['m', 'f', 'n'] (deGenders [hausRec])
        (frGenders [hausRec]) =
      some (confusionMatrix ['m', 'f', 'n'] (deGenders [hausRec])
        (frGenders [hausRec])) :=
  parallel_columns ['m', 'f', 'n'] [hausRec]

/- ### Loader: claim C6 -/

/-- C6 counterexample: a data row with only three fields, fewer than
the four declared columns, does not make the Loader fail: the row
loads and the missing `comment` field becomes the missing value. -/
theorem loader_short_row_loads :
    read_csv (some shortLines) =
      Except.ok [⟨some ['a'], some ['b'], some ['c'], none⟩] := by
  rfl

theorem parseAll_err (width : Nat) :
    ∀ (ls : List (List Char)) (l : List Char), l ∈ ls →
      parseLine width l = Except.error LoadErr.tooManyFields →
      exceptOk (parseAll width ls) = false := by
  intro ls
  induction ls with
  | nil => intro l h _; exact absurd h (by simp)
  | cons x xs ih =>
    intro l hmem hperr
    rcases List.mem_cons.mp hmem with rfl | hmem
    · rw [parseAll, hperr]
      rfl
    · cases hx : parseLine width x with
      | error e => rw [parseAll, hx]; rfl
      | ok r =>
        have hxs := ih l hmem hperr
        cases hall : parseAll width xs with
        | error e => rw [parseAll, hx, hall]; rfl
        | ok rows =>
          rw [hall] at hxs
          exact absurd hxs (by simp [exceptOk])

theorem parseAll_ok (width : Nat) :
    ∀ (ls : List (List Char)),
      (∀ l ∈ ls, (splitTab l).length ≤ width) →
      exceptOk (parseAll width ls) = true := by
  intro ls
  induction ls with
  | nil => intro _; rfl
  | cons x xs ih =>
    intro h
    have hx : (splitTab x).length ≤ width := h x (by simp)
    have hxs := ih fun l hl => h l (by simp [hl])
    have hpx : ∃ r, parseLine width x = Except.ok r := by
      simp only [parseLine]
      rw [if_neg (by omega)]
      exact ⟨_, rfl⟩
    obtain ⟨r, hr⟩ := hpx
    cases hall : parseAll width xs with
    | error e => rw [hall] at hxs; exact absurd hxs (by simp [exceptOk])
    | ok rows => rw [parseAll, hr, hall]; rfl

/-- C6 amended: the Loader fails with `FileNotFoundError` when the
input file is absent, and with a parse error when a data row is wider
than the width established by the first data row; but a column-count
mismatch against the four declared names does not fail by itself: a
row with fewer fields is silently padded with missing values, and a
file whose rows fit the established width — in particular one whose
first data row is wider than four fields — loads without any report,
the extra leading columns becoming the implicit index. -/
theorem loader_failure_modes (lines : List (List Char))
    (line : List Char) (width : Nat) :
    read_csv none = Except.error LoadErr.fileNotFound ∧
    ((splitTab line).length ≤ width →
      ∃ r, parseLine width line = Except.ok r) ∧
    (line ∈ lines.drop 8 →
      establishedWidth (lines.drop 8) < (splitTab line).length →
      exceptOk (read_csv (some lines)) = false) ∧
    ((∀ l ∈ lines.drop 8,
        (splitTab l).length ≤ establishedWidth (lines.drop 8)) →
      exceptOk (read_csv (some lines)) = true) := by
  refine ⟨rfl, ?_, ?_, ?_⟩
  · intro hle
    simp only [parseLine]
    rw [if_neg (by omega)]
    exact ⟨_, rfl⟩
  · intro hmem hgt
    have hperr : parseLine (establishedWidth (lines.drop 8)) line =
        Except.error LoadErr.tooManyFields := by
      simp only [parseLine]
      rw [if_pos hgt]
    rw [read_csv]
    exact parseAll_err _ (lines.drop 8) line hmem hperr
  · intro h
    rw [read_csv]
    exact parseAll_ok _ (lines.drop 8) h

/-- Witness for C6 amended: the absent file fails; a three-field row
parses against the four-column width; a file whose four-field first
data row is followed by a five-field row fails; and a file whose only
data row has five fields loads without error. -/
theorem loader_failure_modes_w :
    read_csv none = Except.error LoadErr.fileNotFound ∧
    (∃ r, parseLine 4 ['a', '\t', 'b', '\t', 'c'] = Except.ok r) ∧
    exceptOk (read_csv (some raggedLines)) = false ∧
    exceptOk (read_csv (some wideLines)) = true :=
  ⟨(loader_failure_modes [] [] 4).1,
    (loader_failure_modes [] ['a', '\t', 'b', '\t', 'c'] 4).2.1
      (by decide),
    (loader_failure_modes raggedLines wideRow 4).2.2.1
      (by decide) (by decide),
    (loader_failure_modes wideLines [] 4).2.2.2 (by decide)⟩

end Gender
